import Mathlib

/-!
Verification of the loglady structured logger.

This file shallowly embeds the core of the loglady TypeScript logger:
the placeholder scanner and substitution algorithm of `Logger.log`
(src/lib/logger.ts), the level-permission check `canLogAtLevel`
(src/lib/log-level.ts), the destination minimum-level gates
(src/destinations/Console, src/destinations/BetterStack), the tracked
delivery queue with its opportunistic cleanup, and the `flush` drain
operation (src/index.ts).

Strings are modelled as `List Char`.  JavaScript runtime values that can be
passed as message parameters are modelled by the inductive `JsValue`;
object field lists and array element lists are encoded spine-style inside
the inductive itself so that every recursion in the file is structural and
every definition evaluates by kernel reduction.  JavaScript promises are
modelled by `JsPromise`, carrying the (always finite, because every
network delivery is bounded by a 5 second timeout) time at which the
underlying operation reaches a terminal state, plus whether it rejects.
`Promise.allSettled` is modelled by `promiseAllSettled`: it settles once
every input has settled and always fulfils.  `String.prototype.replace`
with a string search argument is modelled by `replaceFirst` (literal
replacement; the embedding is faithful for replacement strings that do
not use dollar escapes, and every theorem that quantifies over
replacement text assumes such text where it matters).
-/

/-- Convert a Lean string literal to the `List Char` representation used
throughout the embedding. -/
def cs (s : String) : List Char := s.data

/-- The opening brace character. -/
def braceL : Char := '\x7b'

/-- The closing brace character. -/
def braceR : Char := '\x7d'

/-- Character class of the placeholder-name regex in `Logger.log`
(src/lib/logger.ts line 144): lowercase and uppercase ASCII letters,
the accented Latin letters used in Norwegian, and digits. -/
def isPlaceholderChar (c : Char) : Bool :=
  ('a' ≤ c && c ≤ 'z') || ('A' ≤ c && c ≤ 'Z') || ('0' ≤ c && c ≤ '9') ||
    c = 'æ' || c = 'ø' || c = 'å' || c = 'Æ' || c = 'Ø' || c = 'Å'

/-- Build the text of a placeholder token from its sigil flag and name:
an opening brace, an optional at sign, the name, and a closing brace. -/
def mkTok (sig : Bool) (name : List Char) : List Char :=
  braceL :: ((if sig then ['@'] else []) ++ name ++ [braceR])

/-- Shared body of the two regex alternatives of the placeholder scanner:
read a maximal nonempty run of name characters followed by a closing
brace, and return the full token text together with the input remaining
after the token. -/
def tryTokenCore (sig : Bool) (l : List Char) : Option (List Char × List Char) :=
  match l.dropWhile isPlaceholderChar with
  | c :: rest' =>
    if c = braceR && !(l.takeWhile isPlaceholderChar).isEmpty then
      some (mkTok sig (l.takeWhile isPlaceholderChar), rest')
    else none
  | [] => none

/-- Attempt to match one placeholder token at the position just after an
opening brace, mirroring the alternation of the regex in `Logger.log`:
a plain alphanumeric name, or an at sign followed by such a name. -/
def tryToken (l : List Char) : Option (List Char × List Char) :=
  if l.head? = some '@' then tryTokenCore true l.tail else tryTokenCore false l

theorem length_dropWhile_le (p : Char → Bool) (l : List Char) :
    (l.dropWhile p).length ≤ l.length := by
  induction l with
  | nil => simp [List.dropWhile]
  | cons c rest ih =>
    by_cases h : p c
    · simp only [List.dropWhile, h]
      exact Nat.le_succ_of_le ih
    · simp [List.dropWhile, h]

theorem tryTokenCore_length {sig : Bool} {l t r : List Char}
    (h : tryTokenCore sig l = some (t, r)) : r.length < l.length := by
  unfold tryTokenCore at h
  cases hdw : l.dropWhile isPlaceholderChar with
  | nil => rw [hdw] at h; simp at h
  | cons c rest' =>
    rw [hdw] at h
    by_cases hc : (c = braceR && !(l.takeWhile isPlaceholderChar).isEmpty) = true
    · simp only [hc, if_true, Option.some.injEq, Prod.mk.injEq] at h
      obtain ⟨h1, h2⟩ := h
      subst h2
      have hlen := length_dropWhile_le isPlaceholderChar l
      rw [hdw] at hlen
      simp at hlen
      omega
    · simp [hc] at h

theorem tryToken_length {l t r : List Char}
    (h : tryToken l = some (t, r)) : r.length < l.length := by
  unfold tryToken at h
  by_cases hh : l.head? = some '@'
  · rw [if_pos hh] at h
    have h1 : r.length < l.tail.length := tryTokenCore_length h
    have h2 : l.tail.length ≤ l.length := by
      cases l <;> simp
    omega
  · rw [if_neg hh] at h
    exact tryTokenCore_length h

/-- Fuel-indexed left-to-right scan for placeholder tokens, mirroring the
global regex match in `Logger.log`: at each position, if the current
character opens a brace and a token matches right after it, the token is
recorded and the scan resumes after the token; otherwise the scan
advances one character. -/
def scanAux : Nat → List Char → List (List Char)
  | 0, _ => []
  | _ + 1, [] => []
  | fuel + 1, c :: rest =>
    if c = braceL then
      match tryToken rest with
      | some (tok, rest') => tok :: scanAux fuel rest'
      | none => scanAux fuel rest
    else scanAux fuel rest

/-- All placeholder tokens of a template, in order of occurrence:
the result of `messageTemplate.match` in `Logger.log`. -/
def scanTokens (l : List Char) : List (List Char) := scanAux l.length l

/-- Replace the first occurrence of `pat` in the third argument by `rep`,
modelling `String.prototype.replace` with a plain string search value and
a replacement without dollar escapes.  The string is returned unchanged
when `pat` does not occur. -/
def replaceFirst (pat rep : List Char) : List Char → List Char
  | [] => []
  | c :: rest =>
    if pat.isPrefixOf (c :: rest) then rep ++ (c :: rest).drop pat.length
    else c :: replaceFirst pat rep rest

/-- JavaScript runtime values that can appear as message parameters
(type MessageParameter in src/types/log.types.ts), together with the
null and undefined values the logger has to cope with.  Object field
lists and array element lists are encoded as spines inside the type:
`objCons key value rest` is an object whose first field is
`key : value` and whose remaining fields form `rest`. -/
inductive JsValue where
  | str : List Char → JsValue
  | num : Int → JsValue
  | bool : Bool → JsValue
  | null : JsValue
  | undef : JsValue
  | objNil : JsValue
  | objCons : List Char → JsValue → JsValue → JsValue
  | arrNil : JsValue
  | arrCons : JsValue → JsValue → JsValue
deriving DecidableEq

/-- Test for compound values: the JavaScript condition
`typeof value === "object" || Array.isArray(value)` of
`Logger.getParameterValue`, evaluated on non-null values. -/
def JsValue.isCompound : JsValue → Bool
  | .objNil => true
  | .objCons _ _ _ => true
  | .arrNil => true
  | .arrCons _ _ => true
  | _ => false

/-- Interleave a separator between the elements of a list of character
lists and flatten, as `Array.prototype.join` does. -/
def joinWith (sep : List Char) : List (List Char) → List Char
  | [] => []
  | [x] => x
  | x :: xs => x ++ sep ++ joinWith sep xs

/-- Render an integer in decimal. -/
def intChars (n : Int) : List Char := cs (toString n)

/-- JavaScript default stringification (`value.toString()`), computed
together with the list of already rendered elements of an array spine so
that the whole recursion is structural: strings are themselves, numbers
print in decimal, booleans print as true or false, plain objects print
as the usual object placeholder text, and arrays join their elements
with commas rendering null and undefined elements as empty text. -/
def jsStrAux : JsValue → List Char × List (List Char)
  | .str s => (s, [])
  | .num n => (intChars n, [])
  | .bool b => (if b then cs "true" else cs "false", [])
  | .null => (cs "null", [])
  | .undef => (cs "undefined", [])
  | .objNil => (cs "[object Object]", [])
  | .objCons _ _ _ => (cs "[object Object]", [])
  | .arrNil => ([], [])
  | .arrCons v rest =>
    let elem :=
      match v with
      | .null => []
      | .undef => []
      | v' => (jsStrAux v').1
    let elems := elem :: (jsStrAux rest).2
    (joinWith [','] elems, elems)

/-- JavaScript default stringification. -/
def jsToString (v : JsValue) : List Char := (jsStrAux v).1

/-- Escape a character for a JSON string literal. -/
def escapeJsonChar (c : Char) : List Char :=
  if c = '"' then ['\\', '"'] else if c = '\\' then ['\\', '\\'] else [c]

/-- Render a JSON string literal with its surrounding quotes. -/
def jsonQuote (s : List Char) : List Char :=
  '"' :: (s.foldr (fun c acc => escapeJsonChar c ++ acc) []) ++ ['"']

/-- Model of `JSON.stringify`, computed together with the list of already
rendered fields or elements of the current object or array spine so that
the whole recursion is structural.  Object fields with undefined values
are omitted and undefined array elements serialize as null, as in
JavaScript. -/
def jsonAux : JsValue → List Char × List (List Char)
  | .str s => (jsonQuote s, [])
  | .num n => (intChars n, [])
  | .bool b => (if b then cs "true" else cs "false", [])
  | .null => (cs "null", [])
  | .undef => (cs "null", [])
  | .objNil => (braceL :: [braceR], [])
  | .objCons k v rest =>
    let fields :=
      (match v with
       | .undef => []
       | v' => [jsonQuote k ++ [':'] ++ (jsonAux v').1]) ++ (jsonAux rest).2
    (braceL :: (joinWith [','] fields ++ [braceR]), fields)
  | .arrNil => ('[' :: [']'], [])
  | .arrCons v rest =>
    let elem :=
      match v with
      | .undef => cs "null"
      | v' => (jsonAux v').1
    let elems := elem :: (jsonAux rest).2
    ('[' :: (joinWith [','] elems ++ [']']), elems)

/-- Model of `JSON.stringify`. -/
def jsonStringify (v : JsValue) : List Char := (jsonAux v).1

/-- Direct translation of `Logger.getParameterValue`
(src/lib/logger.ts lines 73 to 83): null and undefined render as the
sentinel text NULL; an at-sigiled placeholder bound to a compound value
renders as JSON; everything else renders via default stringification. -/
def getParameterValue (param : List Char) (value : JsValue) : List Char :=
  match value with
  | .undef => cs "NULL"
  | .null => cs "NULL"
  | v => if param.head? = some '@' && v.isCompound then jsonStringify v else jsToString v

example : scanTokens (cs "User \x7bName\x7d in \x7b@Meta\x7d") =
    [cs "\x7bName\x7d", cs "\x7b@Meta\x7d"] := by decide

example : scanTokens (cs "\x7b\x7bA\x7d") = [cs "\x7bA\x7d"] := by decide

example : scanTokens (cs "\x7bX\x7bA\x7dY\x7d") = [cs "\x7bA\x7d"] := by decide

example : jsonStringify (.objCons (cs "ip") (.str (cs "10.0.0.1")) .objNil) =
    cs "\x7b\"ip\":\"10.0.0.1\"\x7d" := by decide

/-- Property maps of the logger are JavaScript objects used as string-keyed
dictionaries; they are modelled as association lists with unique keys in
insertion order. -/
abbrev Props : Type := List (List Char × JsValue)

/-- Write one key on a JavaScript object: an existing key keeps its
position and gets the new value, a new key is appended. -/
def setProp (props : Props) (k : List Char) (v : JsValue) : Props :=
  if props.any (fun p => p.1 = k) then
    props.map (fun p => if p.1 = k then (k, v) else p)
  else props ++ [(k, v)]

/-- Read one key of a property map. -/
def getProp (props : Props) (k : List Char) : Option JsValue :=
  (props.find? (fun p => p.1 = k)).map (fun p => p.2)

/-- Model of the expression `params[index] ?? null` in `Logger.log`:
a missing positional parameter, and an explicitly undefined one, both
become null. -/
def nullCoerce : Option JsValue → JsValue
  | none => .null
  | some .undef => .null
  | some v => v

/-- Strip the braces from a token text, keeping an at sigil:
`param.replace` with the brace class in `Logger.log` line 156. -/
def placeholderParamOf (tok : List Char) : List Char :=
  tok.filter (fun c => !(c = braceL || c = braceR))

/-- Strip braces and at sigils from a token text:
the `cleanParam` of `Logger.log` line 157. -/
def cleanParamOf (tok : List Char) : List Char :=
  (placeholderParamOf tok).filter (fun c => !(c = '@'))

/-- The substitution loop of `Logger.log` (lines 155 to 164): walk the
matched tokens in order, render each positional parameter, replace the
first remaining occurrence of the token text in the message, and write
the raw parameter value under the cleaned name in the property map. -/
def substLoop : List (List Char) → List JsValue → List Char → Props → List Char × Props
  | [], _, msg, props => (msg, props)
  | tok :: toks, params, msg, props =>
    let paramValue := nullCoerce params.head?
    let messageValue := getParameterValue (placeholderParamOf tok) paramValue
    substLoop toks params.tail (replaceFirst tok messageValue msg)
      (setProp props (cleanParamOf tok) paramValue)

/-- Text of the arity error thrown by `Logger.log` when the number of
parameters does not match the number of placeholder occurrences. -/
def arityMessage (now level : List Char) (expected got : Nat) : List Char :=
  '[' :: now ++ cs "] - Not enough parameters provided for " ++ level ++
    cs " messageTemplate. Expected " ++ cs (toString expected) ++
    cs ", got " ++ cs (toString got)

/-- Result of formatting one message: the substituted text and the
property map contributed by the placeholders. -/
structure FormattedRecord where
  message : List Char
  properties : Props

/-- The template-formatter slice of `Logger.log` (lines 144 to 164):
scan the template for placeholder tokens, fail with the arity error when
the parameter count differs from the token count, otherwise run the
substitution loop starting from the given initial property map.  An
error return models the synchronous JavaScript throw. -/
def formatMessage (now level template : List Char) (params : List JsValue)
    (props0 : Props) : Except (List Char) FormattedRecord :=
  let toks := scanTokens template
  if params.length ≠ toks.length then
    .error (arityMessage now level toks.length params.length)
  else
    let r := substLoop toks params template props0
    .ok ⟨r.1, r.2⟩

/-- Runtime information of `getRuntimeInfo`, read from the manifest and
the environment; each field may be absent. -/
structure RuntimeInfo where
  appName : Option (List Char)
  version : Option (List Char)
  environmentName : Option (List Char)

/-- Ambient log configuration (type LogConfig): context identifier plus
message prefix and suffix.  The source field names are contextId,
prefix and suffix. -/
structure LogConfig where
  contextId : Option (List Char)
  prefixVal : Option (List Char)
  suffixVal : Option (List Char)

/-- Calling-site information recovered by stack introspection in
`Logger.getCallingInfo`; the stack inspection itself is an external
collaborator, so the embedding takes its result as an input. -/
structure CallingInfo where
  functionName : List Char
  fileName : List Char
  filePath : List Char
  lineNumber : Int
  columnNumber : Int

/-- Truthiness of an optional string, as JavaScript sees it: absent and
empty strings are falsy. -/
def truthy : Option (List Char) → Bool
  | none => false
  | some s => !s.isEmpty

/-- Uppercase the first character, as the pascal-casing of log-config
keys in `Logger.createPropertiesObject` does. -/
def pascalCase : List Char → List Char
  | [] => []
  | c :: rest => c.toUpper :: rest

/-- Add one optional string property when present. -/
def addOptProp (props : Props) (k : List Char) : Option (List Char) → Props
  | none => props
  | some v => setProp props k (.str v)

/-- Add one log-config entry when truthy, pascal-casing its key. -/
def addConfigProp (props : Props) (k : List Char) (v : Option (List Char)) : Props :=
  if truthy v then setProp props (pascalCase k) (.str (v.getD [])) else props

/-- Direct translation of `Logger.createPropertiesObject`
(src/lib/logger.ts lines 36 to 71): runtime info first, then the truthy
log-config entries in pascal case, then the calling-site fields when
stack introspection succeeded. -/
def createPropertiesObject (ri : RuntimeInfo) (lc : LogConfig)
    (ci : Option CallingInfo) : Props :=
  let p1 := addOptProp [] (cs "AppName") ri.appName
  let p2 := addOptProp p1 (cs "Version") ri.version
  let p3 := addOptProp p2 (cs "EnvironmentName") ri.environmentName
  let p4 := addConfigProp p3 (cs "contextId") lc.contextId
  let p5 := addConfigProp p4 (cs "prefix") lc.prefixVal
  let p6 := addConfigProp p5 (cs "suffix") lc.suffixVal
  match ci with
  | none => p6
  | some info =>
    let q1 := setProp p6 (cs "FunctionName") (.str info.functionName)
    let q2 := setProp q1 (cs "FileName") (.str info.fileName)
    let q3 := setProp q2 (cs "FilePath") (.str info.filePath)
    let q4 := setProp q3 (cs "LineNumber") (.num info.lineNumber)
    setProp q4 (cs "ColumnNumber") (.num info.columnNumber)

/-- The structured record handed to destinations
(type MessageObject in src/types/log.types.ts). -/
structure MessageObject where
  messageTemplate : List Char
  message : List Char
  properties : Props
  exception : Option (List Char)

/-- Model of a JavaScript promise: the time at which the underlying
operation reaches a terminal state (always finite here, because every
network delivery is bounded by a 5 second timeout), and whether it
rejects. -/
structure JsPromise where
  settlesAt : Nat
  rejects : Bool
deriving DecidableEq

/-- An already settled, fulfilled promise (`Promise.resolve()`). -/
def resolvedPromise : JsPromise := ⟨0, false⟩

/-- A tracked delivery handle (type TrackedPromise): the destination
name, the underlying promise, and the settlement flag flipped by the
promise's own finally callback. -/
structure TrackedPromise where
  name : List Char
  promise : JsPromise
  isSettled : Bool
deriving DecidableEq

/-- Model of `Promise.allSettled`: settles exactly when the last input
promise has settled and always fulfils, regardless of how many inputs
rejected. -/
def promiseAllSettled (ps : List JsPromise) : JsPromise :=
  ⟨ps.foldr (fun p acc => max p.settlesAt acc) 0, false⟩

/-- The awaitable produced by `flush` (src/index.ts): an allSettled join
over the promises of all currently tracked handles. -/
def flushPromise (q : List TrackedPromise) : JsPromise :=
  promiseAllSettled (q.map (fun tp => tp.promise))

/-- The queue rewrite at the end of `flush`: keep only handles that are
still unsettled. -/
def flushClear (q : List TrackedPromise) : List TrackedPromise :=
  q.filter (fun tp => !tp.isSettled)

/-- Remove the element at one index, as `splice(i, 1)` does. -/
def spliceAt (q : List TrackedPromise) (i : Nat) : List TrackedPromise :=
  q.take i ++ q.drop (i + 1)

/-- The downward loop of `Logger.cleanupQueue` (src/lib/logger.ts lines
85 to 91): iterate the index from high to low and splice out every
handle whose settlement flag is set. -/
def cleanupLoop : List TrackedPromise → Nat → List TrackedPromise
  | q, 0 => q
  | q, i + 1 =>
    cleanupLoop (if ((q.get? i).map (fun tp => tp.isSettled)).getD false
      then spliceAt q i else q) i

/-- Opportunistic queue cleanup: run the downward splice loop over the
whole queue. -/
def cleanupQueue (q : List TrackedPromise) : List TrackedPromise :=
  cleanupLoop q q.length

/-- Number of unsettled handles in the queue. -/
def countUnsettled (q : List TrackedPromise) : Nat :=
  (q.filter (fun tp => !tp.isSettled)).length

/-- One dispatch call as the queue sees it: the handles of the active
destinations are appended, then cleanup runs when the queue is
nonempty. -/
def dispatchStep (q : List TrackedPromise) (hs : List TrackedPromise) :
    List TrackedPromise :=
  let q' := q ++ hs
  if q'.length > 0 then cleanupQueue q' else q'

/-- A registered destination as the dispatcher sees it: the activity
flag checked by the dispatcher, and the log capability producing a
tracked handle. -/
structure Destination where
  active : Bool
  logFn : MessageObject → List Char → TrackedPromise

/-- Full translation of `Logger.log` (src/lib/logger.ts lines 138 to
195): scan and arity-check the template, build the enriched property
map, run the substitution loop, wrap the message with the truthy prefix
and suffix, attach the exception stack when one is exposed, invoke every
active destination in registration order pushing its handle, and clean
up the queue when nonempty.  The error return models the synchronous
arity throw, which happens before any state is touched. -/
def loggerLog (ri : RuntimeInfo) (ci : Option CallingInfo) (lc : LogConfig)
    (dests : List Destination) (queue : List TrackedPromise) (now : List Char)
    (template level : List Char) (exc : Option (Option (List Char)))
    (params : List JsValue) :
    Except (List Char) (List TrackedPromise × MessageObject) :=
  let toks := scanTokens template
  if params.length ≠ toks.length then
    .error (arityMessage now level toks.length params.length)
  else
    let props0 := createPropertiesObject ri lc ci
    let r := substLoop toks params template props0
    let m1 := if truthy lc.prefixVal then
        (lc.prefixVal.getD []) ++ cs " - " ++ r.1 else r.1
    let m2 := if truthy lc.suffixVal then
        m1 ++ cs " - " ++ (lc.suffixVal.getD []) else m1
    let mo : MessageObject :=
      ⟨template, m2, r.2, match exc with | some (some st) => some st | _ => none⟩
    let q1 := dests.foldl
      (fun q d => if d.active then q ++ [d.logFn mo level] else q) queue
    let q2 := if q1.length > 0 then cleanupQueue q1 else q1
    .ok (q2, mo)

/-- The level table of the current log-level module
(src/lib/log-level.ts as imported by the destinations, which also
provides `validateLogLevel`): the four canonical severities and their
lowercase aliases. -/
def levelMapper (s : List Char) : Option Nat :=
  if s = cs "DEBUG" then some 0 else if s = cs "debug" then some 0
  else if s = cs "INFO" then some 1 else if s = cs "info" then some 1
  else if s = cs "WARN" then some 2 else if s = cs "warn" then some 2
  else if s = cs "ERROR" then some 3 else if s = cs "error" then some 3
  else none

/-- The level table of the older, unguarded log-level variant: only the
four canonical uppercase severities. -/
def levelMapperLegacy (s : List Char) : Option Nat :=
  if s = cs "DEBUG" then some 0 else if s = cs "INFO" then some 1
  else if s = cs "WARN" then some 2 else if s = cs "ERROR" then some 3
  else none

/-- Direct translation of the guarded `canLogAtLevel`: look both levels
up, throw an invalid-level error when either lookup misses, otherwise
compare ordinals. -/
def canLogAtLevel (messageLogLevel minimumLogLevel : List Char) :
    Except (List Char) Bool :=
  match levelMapper messageLogLevel with
  | none => .error (cs "Invalid message log level: " ++ messageLogLevel)
  | some mv =>
    match levelMapper minimumLogLevel with
    | none => .error (cs "Invalid minimum log level: " ++ minimumLogLevel)
    | some minv => .ok (decide (mv ≥ minv))

/-- The unguarded legacy `canLogAtLevel` of src/lib/log-level.ts: an
unrecognized level yields an undefined ordinal, and every JavaScript
comparison against undefined is false. -/
def canLogAtLevelLegacy (messageLogLevel minimumLogLevel : List Char) : Bool :=
  match levelMapperLegacy messageLogLevel, levelMapperLegacy minimumLogLevel with
  | some a, some b => decide (a ≥ b)
  | _, _ => false

/-- Direct translation of `validateLogLevel`: an unrecognized level
gives an undefined ordinal and the comparison with zero is false. -/
def validateLogLevel (logLevel : List Char) : Bool :=
  match levelMapper logLevel with
  | some v => decide (v ≥ 0)
  | none => false

/-- Externally visible side effects of a destination's log call. -/
inductive Effect where
  | consoleOut : Effect
  | httpPost : Effect
deriving DecidableEq

/-- The log capability of the Console destination
(src/destinations/Console/index.ts lines 51 to 58 and onward): a level
below the configured minimum returns an already settled no-op handle
with no output; otherwise the payload is written to the console and the
handle is settled immediately.  A throwing level check propagates. -/
def consoleLog (minLogLevel : List Char) (mo : MessageObject)
    (level : List Char) : Except (List Char) (TrackedPromise × List Effect) :=
  match canLogAtLevel level minLogLevel with
  | .error e => .error e
  | .ok false => .ok (⟨cs "Console", resolvedPromise, true⟩, [])
  | .ok true => .ok (⟨cs "Console", resolvedPromise, true⟩, [.consoleOut])

/-- The log capability of the BetterStack destination
(src/destinations/BetterStack/index.ts lines 47 to 54 and onward): a
level below the configured minimum returns an already settled no-op
handle with no network call; otherwise a timeout-bounded POST starts and
the returned handle settles when that fetch promise does. -/
def betterStackLog (minLogLevel : List Char) (fetchPromise : JsPromise)
    (mo : MessageObject) (level : List Char) :
    Except (List Char) (TrackedPromise × List Effect) :=
  match canLogAtLevel level minLogLevel with
  | .error e => .error e
  | .ok false => .ok (⟨cs "BetterStack", resolvedPromise, true⟩, [])
  | .ok true => .ok (⟨cs "BetterStack", fetchPromise, false⟩, [.httpPost])

theorem foldr_max_le_of_mem {q : List TrackedPromise} {tp : TrackedPromise}
    (h : tp ∈ q) :
    tp.promise.settlesAt ≤
      ((q.map (fun x => x.promise)).foldr (fun p acc => max p.settlesAt acc) 0) := by
  induction q with
  | nil => simp at h
  | cons hd tl ih =>
    simp only [List.map_cons, List.foldr_cons]
    cases h with
    | head => exact Nat.le_max_left _ _
    | tail _ hmem => exact le_trans (ih hmem) (Nat.le_max_right _ _)

/-- C1: for every state of the tracked-delivery queue, the awaitable
returned by flush settles no earlier than every delivery handle
currently in the queue, and it fulfils rather than rejects regardless of
how the individual deliveries end, including when every one of them
fails or times out. -/
theorem c1_flush_waits_for_all_and_never_rejects :
    ∀ q : List TrackedPromise, (flushPromise q).rejects = false ∧
      ∀ tp, tp ∈ q → tp.promise.settlesAt ≤ (flushPromise q).settlesAt := by
  intro q
  constructor
  · rfl
  · intro tp h
    exact foldr_max_le_of_mem h

/-- C1 witness: a queue holding a single delivery that rejects at its
five-second timeout bound still yields a flush awaitable that fulfils
and settles no earlier than that delivery. -/
theorem c1_witness :
    (flushPromise [⟨cs "BetterStack", ⟨5000, true⟩, false⟩]).rejects = false ∧
      (⟨cs "BetterStack", ⟨5000, true⟩, false⟩ : TrackedPromise).promise.settlesAt ≤
        (flushPromise [⟨cs "BetterStack", ⟨5000, true⟩, false⟩]).settlesAt :=
  ⟨(c1_flush_waits_for_all_and_never_rejects _).1,
    (c1_flush_waits_for_all_and_never_rejects _).2 _ (by decide)⟩

/-- C2: whenever the parameter count differs from the number of
placeholder occurrences in the template, the logging call returns the
synchronous arity error: no destination is invoked, no handle is pushed
and the queue is untouched, because the throw happens before any state
change in `Logger.log`. -/
theorem c2_arity_mismatch_aborts_call :
    ∀ (ri : RuntimeInfo) (ci : Option CallingInfo) (lc : LogConfig)
      (dests : List Destination) (queue : List TrackedPromise)
      (now template level : List Char) (exc : Option (Option (List Char)))
      (params : List JsValue),
      params.length ≠ (scanTokens template).length →
      loggerLog ri ci lc dests queue now template level exc params =
        .error (arityMessage now level (scanTokens template).length params.length) := by
  intro ri ci lc dests queue now template level exc params h
  unfold loggerLog
  rw [if_pos h]

/-- C2 witness: a template with one placeholder and an empty parameter
list yields exactly the arity error, with no destinations and an
empty queue left as they were. -/
theorem c2_witness :
    ([] : List JsValue).length ≠ (scanTokens (cs "User \x7bName\x7d logged in")).length ∧
      loggerLog ⟨none, none, none⟩ none ⟨none, none, none⟩ [] []
        (cs "2026-01-01T00:00:00.000Z") (cs "User \x7bName\x7d logged in")
        (cs "ERROR") none [] =
        .error (arityMessage (cs "2026-01-01T00:00:00.000Z") (cs "ERROR")
          (scanTokens (cs "User \x7bName\x7d logged in")).length 0) :=
  ⟨by decide, c2_arity_mismatch_aborts_call _ _ _ _ _ _ _ _ _ _ (by decide)⟩

/-- C4: the permission check is not reflexive at the CRITICAL and FATAL
severities of the LogLevel type: the guarded check throws an
invalid-level error for them and the legacy unguarded check returns
false, while the public API, the README and the LogLevel type all
present CRITICAL and FATAL as usable severities. -/
theorem c4_critical_fatal_not_recognized :
    canLogAtLevel (cs "CRITICAL") (cs "CRITICAL") =
      .error (cs "Invalid message log level: CRITICAL") ∧
    canLogAtLevel (cs "FATAL") (cs "FATAL") =
      .error (cs "Invalid message log level: FATAL") ∧
    canLogAtLevelLegacy (cs "CRITICAL") (cs "CRITICAL") = false ∧
    canLogAtLevelLegacy (cs "FATAL") (cs "FATAL") = false := by
  refine ⟨rfl, rfl, rfl, rfl⟩

/-- C5: whenever either side of the permission check is not a recognized
level, the check fails with an invalid-level error instead of silently
returning a boolean verdict. -/
theorem c5_unrecognized_level_errors :
    ∀ m minL : List Char,
      levelMapper m = none ∨ levelMapper minL = none →
      ∃ e, canLogAtLevel m minL = .error e := by
  intro m minL h
  unfold canLogAtLevel
  cases hm : levelMapper m with
  | none => exact ⟨_, rfl⟩
  | some mv =>
    cases hmin : levelMapper minL with
    | none => exact ⟨_, rfl⟩
    | some minv =>
      rcases h with h | h
      · rw [hm] at h; cases h
      · rw [hmin] at h; cases h

/-- C5 witness: the unrecognized level CRAZY makes the check fail. -/
theorem c5_witness :
    (levelMapper (cs "CRAZY") = none ∨ levelMapper (cs "DEBUG") = none) ∧
      ∃ e, canLogAtLevel (cs "CRAZY") (cs "DEBUG") = .error e :=
  ⟨Or.inl (by decide), c5_unrecognized_level_errors _ _ (Or.inl (by decide))⟩

/-- C6: whenever the message severity is strictly below a destination's
configured minimum level, both the Console and the BetterStack
destinations return an already settled no-op handle and perform no
console or network I/O. -/
theorem c6_below_min_settled_noop :
    ∀ (minL level : List Char) (a b : Nat) (mo : MessageObject) (fp : JsPromise),
      levelMapper level = some a → levelMapper minL = some b → a < b →
      consoleLog minL mo level = .ok (⟨cs "Console", resolvedPromise, true⟩, []) ∧
      betterStackLog minL fp mo level =
        .ok (⟨cs "BetterStack", resolvedPromise, true⟩, []) := by
  intro minL level a b mo fp ha hb hab
  have hge : decide (a ≥ b) = false := by
    simp only [decide_eq_false_iff_not]
    omega
  constructor
  · unfold consoleLog canLogAtLevel
    rw [ha, hb]
    simp only [hge]
  · unfold betterStackLog canLogAtLevel
    rw [ha, hb]
    simp only [hge]

/-- C6 witness: a DEBUG message against an INFO minimum produces settled
no-op handles with no effects at both destinations. -/
theorem c6_witness :
    levelMapper (cs "DEBUG") = some 0 ∧ levelMapper (cs "INFO") = some 1 ∧
      consoleLog (cs "INFO") ⟨[], [], [], none⟩ (cs "DEBUG") =
        .ok (⟨cs "Console", resolvedPromise, true⟩, []) ∧
      betterStackLog (cs "INFO") ⟨5000, false⟩ ⟨[], [], [], none⟩ (cs "DEBUG") =
        .ok (⟨cs "BetterStack", resolvedPromise, true⟩, []) :=
  ⟨by decide, by decide,
    (c6_below_min_settled_noop (cs "INFO") (cs "DEBUG") 0 1 ⟨[], [], [], none⟩
      ⟨5000, false⟩ (by decide) (by decide) (by decide)).1,
    (c6_below_min_settled_noop (cs "INFO") (cs "DEBUG") 0 1 ⟨[], [], [], none⟩
      ⟨5000, false⟩ (by decide) (by decide) (by decide)).2⟩

theorem cleanupLoop_eq (i : Nat) :
    ∀ q : List TrackedPromise, i ≤ q.length →
    cleanupLoop q i = (q.take i).filter (fun tp => !tp.isSettled) ++ q.drop i := by
  induction i with
  | zero => intro q _; simp [cleanupLoop]
  | succ n ih =>
    intro q hi
    have hn : n < q.length := hi
    have hget : q[n]? = some (q[n]) := List.getElem?_eq_getElem hn
    have hget2 : q.get? n = some (q[n]) := by
      rw [List.get?_eq_getElem? q n, hget]
    have htake : q.take (n + 1) = q.take n ++ [q[n]] := by
      rw [List.take_succ, hget]
      rfl
    have hlt : (q.take n).length = n := by
      rw [List.length_take]
      omega
    unfold cleanupLoop
    rw [hget2]
    by_cases hs : q[n].isSettled
    · rw [if_pos (by simp [hs])]
      have hlen : n ≤ (spliceAt q n).length := by
        unfold spliceAt
        rw [List.length_append, List.length_take, List.length_drop]
        omega
      rw [ih (spliceAt q n) hlen]
      have ht : (spliceAt q n).take n = q.take n := by
        unfold spliceAt
        exact List.take_left' hlt
      have hd : (spliceAt q n).drop n = q.drop (n + 1) := by
        unfold spliceAt
        exact List.drop_left' hlt
      rw [ht, hd, htake, List.filter_append]
      simp [hs]
    · rw [if_neg (by simp [hs])]
      rw [ih q (le_of_lt hn)]
      have hdrop : q.drop n = q[n] :: q.drop (n + 1) :=
        List.drop_eq_getElem_cons hn
      rw [hdrop, htake, List.filter_append]
      simp [hs]

theorem cleanupQueue_eq_filter (q : List TrackedPromise) :
    cleanupQueue q = q.filter (fun tp => !tp.isSettled) := by
  unfold cleanupQueue
  rw [cleanupLoop_eq q.length q (le_refl _), List.take_length, List.drop_length,
    List.append_nil]

theorem countUnsettled_append (a b : List TrackedPromise) :
    countUnsettled (a ++ b) = countUnsettled a + countUnsettled b := by
  unfold countUnsettled
  rw [List.filter_append, List.length_append]

theorem countUnsettled_cleanup (q : List TrackedPromise) :
    countUnsettled (cleanupQueue q) = countUnsettled q := by
  unfold countUnsettled
  rw [cleanupQueue_eq_filter, List.filter_filter]
  simp

theorem countUnsettled_dispatchStep (q hs : List TrackedPromise) :
    countUnsettled (dispatchStep q hs) = countUnsettled q + countUnsettled hs := by
  unfold dispatchStep
  by_cases h : (q ++ hs).length > 0
  · rw [if_pos h, countUnsettled_cleanup, countUnsettled_append]
  · rw [if_neg h, countUnsettled_append]

theorem countUnsettled_le_length (q : List TrackedPromise) :
    countUnsettled q ≤ q.length := by
  unfold countUnsettled
  exact List.length_filter_le _ _

theorem dispatch_fold_bound (M : Nat) :
    ∀ (batches : List (List TrackedPromise)) (q : List TrackedPromise),
      (∀ b ∈ batches, b.length = M) →
      countUnsettled (batches.foldl dispatchStep q) ≤
        countUnsettled q + batches.length * M := by
  intro batches
  induction batches with
  | nil => intro q _; simp
  | cons b rest ih =>
    intro q hb
    rw [List.foldl_cons]
    have h1 := ih (dispatchStep q b) (fun x hx => hb x (List.mem_cons_of_mem _ hx))
    have h2 : countUnsettled (dispatchStep q b) ≤ countUnsettled q + M := by
      rw [countUnsettled_dispatchStep]
      have := countUnsettled_le_length b
      have hlb := hb b (List.mem_cons_self _ _)
      omega
    calc countUnsettled ((rest.foldl dispatchStep (dispatchStep q b))) ≤
        countUnsettled (dispatchStep q b) + rest.length * M := h1
      _ ≤ countUnsettled q + M + rest.length * M := by omega
      _ = countUnsettled q + (b :: rest).length * M := by
          rw [List.length_cons]
          ring

/-- C9: the opportunistic cleanup removes exactly the settled handles
while preserving the relative order of the unsettled ones; starting from
an empty queue, any sequence of dispatch calls each fanning out to M
active destinations leaves at most N times M unsettled handles after N
calls; and the queue rewrite of a completed flush whose wait covered
every tracked handle leaves the queue empty. -/
theorem c9_queue_invariants :
    (∀ q : List TrackedPromise,
      cleanupQueue q = q.filter (fun tp => !tp.isSettled)) ∧
    (∀ (M : Nat) (batches : List (List TrackedPromise)),
      (∀ b ∈ batches, b.length = M) →
      countUnsettled (batches.foldl dispatchStep []) ≤ batches.length * M) ∧
    (∀ q : List TrackedPromise, (∀ tp ∈ q, tp.isSettled = true) →
      flushClear q = []) := by
  refine ⟨cleanupQueue_eq_filter, ?_, ?_⟩
  · intro M batches hb
    have h := dispatch_fold_bound M batches [] hb
    have hz : countUnsettled [] = 0 := rfl
    omega
  · intro q h
    unfold flushClear
    rw [List.filter_eq_nil_iff]
    intro tp htp
    simp [h tp htp]

/-- C9 witness: a two-handle queue with one settled entry cleans up to
the unsettled entry alone; two single-destination dispatches keep at
most two unsettled handles; and a fully settled queue is empty after the
flush rewrite. -/
theorem c9_witness :
    cleanupQueue [⟨cs "Console", resolvedPromise, true⟩,
        ⟨cs "BetterStack", ⟨5000, false⟩, false⟩] =
      [⟨cs "BetterStack", ⟨5000, false⟩, false⟩] ∧
    countUnsettled ([[⟨cs "BetterStack", ⟨1, false⟩, false⟩],
        [⟨cs "BetterStack", ⟨2, false⟩, false⟩]].foldl dispatchStep []) ≤ 2 * 1 ∧
    flushClear [⟨cs "Console", resolvedPromise, true⟩] = [] := by
  refine ⟨?_, ?_, ?_⟩
  · rw [c9_queue_invariants.1]
    decide
  · exact c9_queue_invariants.2.1 1 _ (by decide)
  · exact c9_queue_invariants.2.2 _ (by decide)

theorem scanAux_succ (f : Nat) (c : Char) (rest : List Char) :
    scanAux (f + 1) (c :: rest) =
      if c = braceL then
        match tryToken rest with
        | some (tok, rest') => tok :: scanAux f rest'
        | none => scanAux f rest
      else scanAux f rest := rfl

theorem scanAux_nil (f : Nat) : scanAux f [] = [] := by
  cases f <;> rfl

theorem scanAux_fuel (f1 : Nat) :
    ∀ (l : List Char) (f2 : Nat), l.length ≤ f1 → l.length ≤ f2 →
      scanAux f1 l = scanAux f2 l := by
  induction f1 with
  | zero =>
    intro l f2 h1 _
    have : l = [] := List.length_eq_zero.mp (Nat.le_zero.mp h1)
    subst this
    rw [scanAux_nil, scanAux_nil]
  | succ n ih =>
    intro l f2 h1 h2
    cases l with
    | nil => rw [scanAux_nil, scanAux_nil]
    | cons c rest =>
      cases f2 with
      | zero => simp at h2
      | succ m =>
        rw [scanAux_succ, scanAux_succ]
        simp only [List.length_cons] at h1 h2
        have hr1 : rest.length ≤ n := by omega
        have hr2 : rest.length ≤ m := by omega
        by_cases hb : c = braceL
        · rw [if_pos hb, if_pos hb]
          cases htk : tryToken rest with
          | none => exact ih rest m hr1 hr2
          | some pr =>
            obtain ⟨tok, rest'⟩ := pr
            have hlt := tryToken_length htk
            change tok :: scanAux n rest' = tok :: scanAux m rest'
            rw [ih rest' m (by omega) (by omega)]
        · rw [if_neg hb, if_neg hb]
          exact ih rest m hr1 hr2

theorem scanAux_no_brace :
    ∀ (l : List Char), braceL ∉ l → ∀ f, scanAux f l = [] := by
  intro l
  induction l with
  | nil => intro _ f; exact scanAux_nil f
  | cons c rest ih =>
    intro h f
    cases f with
    | zero => rfl
    | succ n =>
      rw [scanAux_succ]
      have hc : ¬(c = braceL) := fun hc => h (hc ▸ List.mem_cons_self c rest)
      rw [if_neg hc]
      exact ih (fun hm => h (List.mem_cons_of_mem c hm)) n

theorem scanTokens_no_brace (l : List Char) (h : braceL ∉ l) :
    scanTokens l = [] := scanAux_no_brace l h l.length

theorem scanAux_skip :
    ∀ (s t : List Char) (f : Nat), braceL ∉ s → (s ++ t).length ≤ f →
      scanAux f (s ++ t) = scanAux t.length t := by
  intro s
  induction s with
  | nil =>
    intro t f _ hf
    simp only [List.nil_append] at hf ⊢
    exact scanAux_fuel f t t.length (by omega) (le_refl _)
  | cons c s' ih =>
    intro t f h hf
    simp only [List.cons_append, List.length_cons] at hf ⊢
    cases f with
    | zero => omega
    | succ n =>
      rw [scanAux_succ]
      have hc : ¬(c = braceL) := fun hc => h (hc ▸ List.mem_cons_self c s')
      rw [if_neg hc]
      exact ih t n (fun hm => h (List.mem_cons_of_mem c hm)) (by
        simp only [List.length_append] at hf ⊢
        omega)

theorem takeWhile_name (name : List Char) (tail : List Char)
    (h : ∀ c ∈ name, isPlaceholderChar c = true) :
    (name ++ braceR :: tail).takeWhile isPlaceholderChar = name ∧
      (name ++ braceR :: tail).dropWhile isPlaceholderChar = braceR :: tail := by
  induction name with
  | nil =>
    have hbr : isPlaceholderChar braceR = false := by decide
    constructor
    · simp [List.takeWhile_cons, hbr]
    · simp [List.dropWhile_cons, hbr]
  | cons c rest ih =>
    have hc : isPlaceholderChar c = true := h c (List.mem_cons_self _ _)
    have ihr := ih (fun x hx => h x (List.mem_cons_of_mem c hx))
    constructor
    · simp only [List.cons_append, List.takeWhile_cons, hc, if_true]
      rw [ihr.1]
    · simp only [List.cons_append, List.dropWhile_cons, hc, if_true]
      exact ihr.2

theorem tryTokenCore_token (sig : Bool) (name tail : List Char)
    (hne : name ≠ []) (h : ∀ c ∈ name, isPlaceholderChar c = true) :
    tryTokenCore sig (name ++ braceR :: tail) = some (mkTok sig name, tail) := by
  obtain ⟨h1, h2⟩ := takeWhile_name name tail h
  have hstep : tryTokenCore sig (name ++ braceR :: tail) =
      if (braceR = braceR &&
          !((name ++ braceR :: tail).takeWhile isPlaceholderChar).isEmpty) = true then
        some (mkTok sig ((name ++ braceR :: tail).takeWhile isPlaceholderChar), tail)
      else none := by
    unfold tryTokenCore
    rw [h2]
  rw [hstep, h1, if_pos (by simp [List.isEmpty_iff, hne])]

theorem tryToken_token (sig : Bool) (name tail : List Char)
    (hne : name ≠ []) (h : ∀ c ∈ name, isPlaceholderChar c = true) :
    tryToken ((if sig then ['@'] else []) ++ name ++ braceR :: tail) =
      some (mkTok sig name, tail) := by
  cases sig with
  | true =>
    have hl : (if (true : Bool) then ['@'] else ([] : List Char)) ++ name ++
        braceR :: tail = '@' :: (name ++ braceR :: tail) := by simp
    rw [hl]
    unfold tryToken
    simp only [List.head?_cons, List.tail_cons]
    rw [if_pos trivial]
    exact tryTokenCore_token true name tail hne h
  | false =>
    have hl : (if (false : Bool) then ['@'] else ([] : List Char)) ++ name ++
        braceR :: tail = name ++ braceR :: tail := by simp
    rw [hl]
    unfold tryToken
    have hhd : ¬((name ++ braceR :: tail).head? = some '@') := by
      cases name with
      | nil => exact absurd rfl hne
      | cons c rest =>
        have hc : isPlaceholderChar c = true := h c (List.mem_cons_self _ _)
        have hcne : c ≠ '@' := by
          intro hc2
          rw [hc2] at hc
          exact absurd hc (by decide)
        simp [hcne]
    rw [if_neg hhd]
    exact tryTokenCore_token false name tail hne h

/-- A template decomposition: a leading literal segment followed by
pieces, each a placeholder (sigil flag and name) and the literal segment
after it. -/
def assemble (s0 : List Char) : List ((Bool × List Char) × List Char) → List Char
  | [] => s0
  | ((sig, name), seg) :: rest => s0 ++ mkTok sig name ++ assemble seg rest

theorem assemble_absorb (rest : List ((Bool × List Char) × List Char))
    (a seg : List Char) :
    a ++ assemble seg rest = assemble (a ++ seg) rest := by
  cases rest with
  | nil => rfl
  | cons p r =>
    obtain ⟨⟨sig, name⟩, seg2⟩ := p
    show a ++ (seg ++ mkTok sig name ++ assemble seg2 r) = _
    simp [assemble, List.append_assoc]

/-- Validity of one decomposition piece: nonempty placeholder name made
of placeholder characters, and a following segment with no opening
brace. -/
def validPiece (p : (Bool × List Char) × List Char) : Prop :=
  p.1.2 ≠ [] ∧ (∀ c ∈ p.1.2, isPlaceholderChar c = true) ∧ braceL ∉ p.2

instance (p : (Bool × List Char) × List Char) : Decidable (validPiece p) := by
  unfold validPiece
  infer_instance


theorem scanAux_token_step (f : Nat) (rest tok rest' : List Char)
    (htk : tryToken rest = some (tok, rest')) :
    scanAux (f + 1) (braceL :: rest) = tok :: scanAux f rest' := by
  rw [scanAux_succ, if_pos rfl, htk]

theorem scanAux_assemble :
    ∀ (pieces : List ((Bool × List Char) × List Char)) (s0 : List Char) (f : Nat),
      braceL ∉ s0 → (∀ p ∈ pieces, validPiece p) →
      (assemble s0 pieces).length ≤ f →
      scanAux f (assemble s0 pieces) =
        pieces.map (fun p => mkTok p.1.1 p.1.2) := by
  intro pieces
  induction pieces with
  | nil =>
    intro s0 f h0 _ _
    exact scanAux_no_brace s0 h0 f
  | cons p rest ih =>
    intro s0 f h0 hv hf
    obtain ⟨⟨sig, name⟩, seg⟩ := p
    obtain ⟨hne, hnm, hseg⟩ := hv _ (List.mem_cons_self _ _)
    have hvrest : ∀ q ∈ rest, validPiece q :=
      fun q hq => hv q (List.mem_cons_of_mem _ hq)
    have hassoc : assemble s0 (((sig, name), seg) :: rest) =
        s0 ++ (mkTok sig name ++ assemble seg rest) := by
      show s0 ++ mkTok sig name ++ assemble seg rest = _
      rw [List.append_assoc]
    rw [hassoc] at hf ⊢
    rw [scanAux_skip s0 _ f h0 hf]
    have hT : mkTok sig name ++ assemble seg rest =
        braceL :: ((((if sig then ['@'] else []) ++ name ++ [braceR])) ++
          assemble seg rest) := by
      show (braceL :: ((if sig then ['@'] else []) ++ name ++ [braceR])) ++
          assemble seg rest = _
      rw [List.cons_append]
    rw [hT, List.length_cons]
    have harr : (((if sig then ['@'] else []) ++ name ++ [braceR])) ++
        assemble seg rest =
        (if sig then ['@'] else []) ++ name ++ braceR :: assemble seg rest := by
      simp [List.append_assoc]
    have htok : tryToken ((((if sig then ['@'] else []) ++ name ++ [braceR])) ++
        assemble seg rest) = some (mkTok sig name, assemble seg rest) := by
      rw [harr]
      exact tryToken_token sig name (assemble seg rest) hne hnm
    rw [scanAux_token_step _ _ _ _ htok]
    have hle : (assemble seg rest).length ≤
        ((((if sig then ['@'] else []) ++ name ++ [braceR])) ++
          assemble seg rest).length := by
      rw [List.length_append]
      omega
    rw [scanAux_fuel _ (assemble seg rest) (assemble seg rest).length hle (le_refl _)]
    rw [ih seg (assemble seg rest).length hseg hvrest (le_refl _)]
    rfl

theorem scanTokens_assemble (pieces : List ((Bool × List Char) × List Char))
    (s0 : List Char) (h0 : braceL ∉ s0) (hv : ∀ p ∈ pieces, validPiece p) :
    scanTokens (assemble s0 pieces) = pieces.map (fun p => mkTok p.1.1 p.1.2) :=
  scanAux_assemble pieces s0 (assemble s0 pieces).length h0 hv (le_refl _)

theorem isPrefixOf_cons_cons (x y : Char) (xs ys : List Char) :
    (x :: xs).isPrefixOf (y :: ys) = (x == y && xs.isPrefixOf ys) := rfl

theorem isPrefixOf_append_self (pat B : List Char) :
    pat.isPrefixOf (pat ++ B) = true := by
  induction pat with
  | nil => cases B <;> rfl
  | cons c p ih =>
    rw [List.cons_append, isPrefixOf_cons_cons, ih]
    simp

theorem replaceFirst_cons (pat rep : List Char) (c : Char) (rest : List Char) :
    replaceFirst pat rep (c :: rest) =
      if pat.isPrefixOf (c :: rest) then rep ++ (c :: rest).drop pat.length
      else c :: replaceFirst pat rep rest := rfl

theorem replaceFirst_boundary :
    ∀ (A pat rep B : List Char), braceL ∉ A → pat.head? = some braceL →
      replaceFirst pat rep (A ++ (pat ++ B)) = A ++ (rep ++ B) := by
  intro A
  induction A with
  | nil =>
    intro pat rep B _ hpat
    cases pat with
    | nil => simp at hpat
    | cons c p =>
      rw [List.nil_append, List.nil_append]
      have hx : (c :: p) ++ B = c :: (p ++ B) := List.cons_append c p B
      rw [hx, replaceFirst_cons]
      have hpre : (c :: p).isPrefixOf (c :: (p ++ B)) = true := by
        rw [← hx]
        exact isPrefixOf_append_self (c :: p) B
      rw [hpre, if_pos rfl, ← hx, List.drop_left]
  | cons a A' ih =>
    intro pat rep B hA hpat
    have ha : a ≠ braceL := fun h => hA (h ▸ List.mem_cons_self a A')
    cases pat with
    | cons c p =>
      have hc : c = braceL := by
        simp only [List.head?_cons, Option.some.injEq] at hpat
        exact hpat
      simp only [List.cons_append]
      rw [replaceFirst_cons]
      have hnp : (c :: p).isPrefixOf (a :: (A' ++ (c :: (p ++ B)))) = false := by
        rw [isPrefixOf_cons_cons]
        have hca : (c == a) = false := by
          apply beq_eq_false_iff_ne.mpr
          rw [hc]
          exact Ne.symm ha
        rw [hca]
        simp
      rw [hnp]
      simp only [Bool.false_eq_true, if_false]
      have hih := ih (c :: p) rep B (fun h => hA (List.mem_cons_of_mem a h)) hpat
      simp only [List.cons_append] at hih
      rw [hih]
    | nil => simp at hpat

theorem replaceFirst_self (pat rep : List Char) (h : pat ≠ []) :
    replaceFirst pat rep pat = rep := by
  cases pat with
  | nil => exact absurd rfl h
  | cons c p =>
    rw [replaceFirst_cons]
    have hpre : (c :: p).isPrefixOf (c :: p) = true := by
      have h2 := isPrefixOf_append_self (c :: p) []
      rw [List.append_nil] at h2
      exact h2
    rw [hpre, if_pos rfl, List.drop_length, List.append_nil]

theorem name_char_not_brace {c : Char} (h : isPlaceholderChar c = true) :
    (!(decide (c = braceL) || decide (c = braceR))) = true := by
  by_cases h1 : c = braceL
  · subst h1
    exact absurd h (by decide)
  · by_cases h2 : c = braceR
    · subst h2
      exact absurd h (by decide)
    · simp [h1, h2]

theorem name_char_not_at {c : Char} (h : isPlaceholderChar c = true) :
    (!(decide (c = '@'))) = true := by
  by_cases h1 : c = '@'
  · subst h1
    exact absurd h (by decide)
  · simp [h1]

theorem placeholderParamOf_mkTok (sig : Bool) (name : List Char)
    (h : ∀ c ∈ name, isPlaceholderChar c = true) :
    placeholderParamOf (mkTok sig name) = (if sig then ['@'] else []) ++ name := by
  unfold placeholderParamOf mkTok
  have hname : name.filter (fun c => !(c = braceL || c = braceR)) = name := by
    rw [List.filter_eq_self]
    intro c hc
    exact name_char_not_brace (h c hc)
  have hbtl : (braceL :: ((if sig then ['@'] else []) ++ name ++ [braceR])).filter
      (fun c => !(c = braceL || c = braceR)) =
      ((if sig then ['@'] else []) ++ name ++ [braceR]).filter
        (fun c => !(c = braceL || c = braceR)) := by
    rw [List.filter_cons]
    simp
  rw [hbtl, List.filter_append, List.filter_append, hname]
  have hr : ([braceR] : List Char).filter (fun c => !(c = braceL || c = braceR)) =
      [] := by decide
  rw [hr, List.append_nil]
  cases sig with
  | true =>
    have hat : (['@'] : List Char).filter (fun c => !(c = braceL || c = braceR)) =
        ['@'] := by decide
    simp only [if_true]
    rw [hat]
  | false =>
    rfl

theorem cleanParamOf_mkTok (sig : Bool) (name : List Char)
    (h : ∀ c ∈ name, isPlaceholderChar c = true) :
    cleanParamOf (mkTok sig name) = name := by
  unfold cleanParamOf
  rw [placeholderParamOf_mkTok sig name h]
  have hname : name.filter (fun c => !(c = '@')) = name := by
    rw [List.filter_eq_self]
    intro c hc
    exact name_char_not_at (h c hc)
  cases sig with
  | true =>
    simp only [if_true, List.filter_append]
    rw [hname]
    have hat : (['@'] : List Char).filter (fun c => !(c = '@')) = [] := by decide
    rw [hat, List.nil_append]
  | false =>
    simp only [if_false, List.filter_append, List.filter_nil, List.nil_append]
    exact hname

/-- Rendered text of one placeholder piece: what the substitution loop
inserts into the message for the given sigil, name and parameter. -/
def renderValue (sig : Bool) (name : List Char) (v : JsValue) : List Char :=
  getParameterValue ((if sig then ['@'] else []) ++ name) (nullCoerce (some v))

/-- Expected message after hygienic substitution: the decomposition with
each placeholder token replaced by its positional rendered value. -/
def assembleR (s0 : List Char) :
    List (((Bool × List Char) × List Char) × JsValue) → List Char
  | [] => s0
  | (((sig, name), seg), v) :: rest =>
    s0 ++ renderValue sig name v ++ assembleR seg rest

theorem assembleR_absorb
    (rest : List (((Bool × List Char) × List Char) × JsValue))
    (a seg : List Char) :
    a ++ assembleR seg rest = assembleR (a ++ seg) rest := by
  cases rest with
  | nil => rfl
  | cons p r =>
    obtain ⟨⟨⟨sig, name⟩, seg2⟩, v⟩ := p
    show a ++ (seg ++ renderValue sig name v ++ assembleR seg2 r) = _
    simp [assembleR, List.append_assoc]

theorem substLoop_cons (tok : List Char) (toks : List (List Char))
    (params : List JsValue) (msg : List Char) (props : Props) :
    substLoop (tok :: toks) params msg props =
      substLoop toks params.tail
        (replaceFirst tok
          (getParameterValue (placeholderParamOf tok) (nullCoerce params.head?))
          msg)
        (setProp props (cleanParamOf tok) (nullCoerce params.head?)) := rfl

theorem substLoop_assemble :
    ∀ (pieces : List ((Bool × List Char) × List Char)) (vals : List JsValue)
      (s0 : List Char) (props : Props),
      braceL ∉ s0 → (∀ p ∈ pieces, validPiece p) →
      vals.length = pieces.length →
      (∀ pv ∈ pieces.zip vals, braceL ∉ renderValue pv.1.1.1 pv.1.1.2 pv.2) →
      (substLoop (pieces.map (fun p => mkTok p.1.1 p.1.2)) vals
        (assemble s0 pieces) props).1 = assembleR s0 (pieces.zip vals) := by
  intro pieces
  induction pieces with
  | nil =>
    intro vals s0 props _ _ _ _
    rfl
  | cons p rest ih =>
    intro vals s0 props h0 hv hlen hz
    obtain ⟨⟨sig, name⟩, seg⟩ := p
    obtain ⟨hne, hnm, hseg⟩ := hv _ (List.mem_cons_self _ _)
    have hvrest : ∀ q ∈ rest, validPiece q :=
      fun q hq => hv q (List.mem_cons_of_mem _ hq)
    cases vals with
    | nil => simp at hlen
    | cons v vs =>
      simp only [List.length_cons] at hlen
      have hzc : (((sig, name), seg) :: rest).zip (v :: vs) =
          (((sig, name), seg), v) :: rest.zip vs := rfl
      have hrv : braceL ∉ renderValue sig name v := by
        have := hz _ (hzc ▸ List.mem_cons_self ((((sig, name), seg), v)) (rest.zip vs))
        exact this
      have hzrest : ∀ pv ∈ rest.zip vs,
          braceL ∉ renderValue pv.1.1.1 pv.1.1.2 pv.2 := by
        intro pv hpv
        exact hz pv (hzc ▸ List.mem_cons_of_mem _ hpv)
      rw [List.map_cons, substLoop_cons]
      simp only [List.head?_cons, List.tail_cons]
      have hmsg : assemble s0 (((sig, name), seg) :: rest) =
          s0 ++ (mkTok sig name ++ assemble seg rest) := by
        show s0 ++ mkTok sig name ++ assemble seg rest = _
        rw [List.append_assoc]
      have hrender :
          getParameterValue (placeholderParamOf (mkTok sig name))
            (nullCoerce (some v)) = renderValue sig name v := by
        unfold renderValue
        rw [placeholderParamOf_mkTok sig name hnm]
      rw [hmsg, hrender,
        replaceFirst_boundary s0 (mkTok sig name) (renderValue sig name v)
          (assemble seg rest) h0 rfl]
      have hmsg2 : s0 ++ (renderValue sig name v ++ assemble seg rest) =
          assemble ((s0 ++ renderValue sig name v) ++ seg) rest := by
        rw [← List.append_assoc]
        exact assemble_absorb rest (s0 ++ renderValue sig name v) seg
      rw [hmsg2]
      have hbrace : braceL ∉ (s0 ++ renderValue sig name v) ++ seg := by
        intro hmem
        rcases List.mem_append.mp hmem with hm | hm
        · rcases List.mem_append.mp hm with hm2 | hm2
          · exact h0 hm2
          · exact hrv hm2
        · exact hseg hm
      rw [ih vs ((s0 ++ renderValue sig name v) ++ seg) _ hbrace hvrest
        (by omega) hzrest]
      rw [hzc]
      show assembleR ((s0 ++ renderValue sig name v) ++ seg) (rest.zip vs) =
        s0 ++ renderValue sig name v ++ assembleR seg (rest.zip vs)
      rw [← assembleR_absorb, List.append_assoc]

theorem assembleR_no_brace :
    ∀ (z : List (((Bool × List Char) × List Char) × JsValue)) (s0 : List Char),
      braceL ∉ s0 →
      (∀ e ∈ z, braceL ∉ renderValue e.1.1.1 e.1.1.2 e.2 ∧ braceL ∉ e.1.2) →
      braceL ∉ assembleR s0 z := by
  intro z
  induction z with
  | nil =>
    intro s0 h0 _
    exact h0
  | cons e r ih =>
    intro s0 h0 hez
    obtain ⟨⟨⟨sig, name⟩, seg⟩, v⟩ := e
    obtain ⟨hrv, hseg⟩ := hez _ (List.mem_cons_self _ _)
    intro hmem
    have : braceL ∈ s0 ++ renderValue sig name v ++ assembleR seg r := hmem
    rcases List.mem_append.mp this with hm | hm
    · rcases List.mem_append.mp hm with hm2 | hm2
      · exact h0 hm2
      · exact hrv hm2
    · exact ih seg hseg (fun q hq => hez q (List.mem_cons_of_mem _ hq)) hm

/-- C3 counterexample: the template with the single placeholder token
named A and the single parameter whose rendered text is itself a token
(the literal text of a placeholder named B) formats successfully, yet
the resulting message consists of exactly one remaining token matching
the placeholder grammar, contradicting the claim that no such token
remains whenever the arity matches. -/
theorem c3_counterexample :
    (scanTokens (cs "\x7bA\x7d")).length = 1 ∧
    formatMessage (cs "T") (cs "ERROR") (cs "\x7bA\x7d")
        [.str (cs "\x7bB\x7d")] [] =
      .ok ⟨cs "\x7bB\x7d", [(cs "A", .str (cs "\x7bB\x7d"))]⟩ ∧
    scanTokens (cs "\x7bB\x7d") = [cs "\x7bB\x7d"] := by
  refine ⟨by decide, rfl, by decide⟩

/-- C3 amended: whenever the template decomposes into brace-free literal
segments interleaved with well-formed placeholder tokens, and the
parameter list has exactly the same length as the token list, and no
rendered parameter value contains an opening brace or a dollar sign,
formatting succeeds, the message is the decomposition with each token
replaced by its positional rendered value (so repeated identical
placeholders consume their positional parameters in order), and the
message contains no remaining token of the placeholder grammar. -/
theorem c3_amended_hygienic_substitution :
    ∀ (pieces : List ((Bool × List Char) × List Char)) (vals : List JsValue)
      (s0 now level : List Char),
      braceL ∉ s0 → (∀ p ∈ pieces, validPiece p) →
      vals.length = pieces.length →
      (∀ pv ∈ pieces.zip vals,
        braceL ∉ renderValue pv.1.1.1 pv.1.1.2 pv.2 ∧
        '$' ∉ renderValue pv.1.1.1 pv.1.1.2 pv.2) →
      ∃ r : FormattedRecord,
        formatMessage now level (assemble s0 pieces) vals [] = .ok r ∧
        r.message = assembleR s0 (pieces.zip vals) ∧
        scanTokens r.message = [] := by
  intro pieces vals s0 now level h0 hv hlen hz
  have hsc := scanTokens_assemble pieces s0 h0 hv
  have hlen2 : ¬(vals.length ≠ (scanTokens (assemble s0 pieces)).length) := by
    rw [hsc, List.length_map]
    omega
  have hmessage := substLoop_assemble pieces vals s0 [] h0 hv hlen
    (fun pv hpv => (hz pv hpv).1)
  refine ⟨⟨(substLoop (scanTokens (assemble s0 pieces)) vals
    (assemble s0 pieces) []).1,
    (substLoop (scanTokens (assemble s0 pieces)) vals
      (assemble s0 pieces) []).2⟩, ?_, ?_, ?_⟩
  · unfold formatMessage
    rw [if_neg hlen2]
  · rw [hsc]
    exact hmessage
  · show scanTokens (substLoop (scanTokens (assemble s0 pieces)) vals
      (assemble s0 pieces) []).1 = []
    rw [hsc, hmessage]
    apply scanTokens_no_brace
    apply assembleR_no_brace (pieces.zip vals) s0 h0
    intro e he
    refine ⟨(hz e he).1, ?_⟩
    have hmem := (List.of_mem_zip he).1
    exact (hv e.1 hmem).2.2

/-- C3 witness: the template built from the greeting segment and two
identical placeholders named A formats with two distinct parameters,
substituting them in order and leaving no token behind. -/
theorem c3_witness :
    ∃ r : FormattedRecord,
      formatMessage (cs "T") (cs "INFO")
          (assemble (cs "Hi ") [((false, cs "A"), cs " and "), ((false, cs "A"), [])])
          [.str (cs "x"), .str (cs "y")] [] = .ok r ∧
        r.message = assembleR (cs "Hi ")
          ([((false, cs "A"), cs " and "), ((false, cs "A"), [])].zip
            [JsValue.str (cs "x"), JsValue.str (cs "y")]) ∧
        scanTokens r.message = [] :=
  c3_amended_hygienic_substitution
    [((false, cs "A"), cs " and "), ((false, cs "A"), [])]
    [.str (cs "x"), .str (cs "y")] (cs "Hi ") (cs "T") (cs "INFO")
    (by decide) (by decide) (by decide) (by decide)

theorem scanTokens_single (sig : Bool) (name : List Char) (hne : name ≠ [])
    (hnm : ∀ c ∈ name, isPlaceholderChar c = true) :
    scanTokens (mkTok sig name) = [mkTok sig name] := by
  have h := scanTokens_assemble [((sig, name), [])] [] (by simp)
    (by
      intro p hp
      have : p = ((sig, name), []) := by
        cases hp with
        | head => rfl
        | tail _ hm => cases hm
      subst this
      exact ⟨hne, hnm, by simp⟩)
  have hasm : assemble [] [((sig, name), [])] = mkTok sig name := by
    show [] ++ mkTok sig name ++ assemble [] [] = mkTok sig name
    simp [assemble]
  rw [hasm] at h
  exact h

/-- C7 counterexample: the single-placeholder template bound to a null
parameter yields the sentinel text NULL inside the message, but the
properties map stores the raw null value under the name, not the
sentinel text, so the property value is the JavaScript null (which
serializes as the text null), contradicting the claim that NULL is
rendered in the stored property value as well. -/
theorem c7_counterexample :
    formatMessage (cs "T") (cs "ERROR") (cs "\x7bA\x7d") [JsValue.null] [] =
      .ok ⟨cs "NULL", [(cs "A", JsValue.null)]⟩ ∧
    JsValue.null ≠ JsValue.str (cs "NULL") ∧
    jsonStringify JsValue.null = cs "null" := by
  refine ⟨rfl, by decide, by decide⟩

/-- C7 amended: a null or absent parameter bound to a placeholder
renders as the literal sentinel text NULL in the substituted message,
never as the text null or undefined, and the placeholder still occupies
a properties entry; that entry stores the raw null value, not the
sentinel text. -/
theorem c7_null_sentinel :
    (∀ (param : List Char) (v : JsValue), v = .null ∨ v = .undef →
      getParameterValue param v = cs "NULL") ∧
    cs "NULL" ≠ cs "null" ∧ cs "NULL" ≠ cs "undefined" ∧
    (∀ (sig : Bool) (name now level : List Char) (v : JsValue),
      name ≠ [] → (∀ c ∈ name, isPlaceholderChar c = true) →
      (v = .null ∨ v = .undef) →
      formatMessage now level (mkTok sig name) [v] [] =
        .ok ⟨cs "NULL", [(name, JsValue.null)]⟩) := by
  refine ⟨?_, by decide, by decide, ?_⟩
  · intro param v hv
    rcases hv with hv | hv <;> subst hv <;> rfl
  · intro sig name now level v hne hnm hv
    have hsc := scanTokens_single sig name hne hnm
    have hone : ¬(([v] : List JsValue).length ≠
        (scanTokens (mkTok sig name)).length) := by
      rw [hsc]
      simp
    have hnc : nullCoerce (some v) = JsValue.null := by
      rcases hv with hv | hv <;> subst hv <;> rfl
    have hsub : substLoop [mkTok sig name] [v] (mkTok sig name) [] =
        (cs "NULL", [(name, JsValue.null)]) := by
      rw [substLoop_cons]
      simp only [List.head?_cons, List.tail_cons]
      rw [hnc]
      have hgv : getParameterValue (placeholderParamOf (mkTok sig name))
          JsValue.null = cs "NULL" := rfl
      rw [hgv]
      have hrep : replaceFirst (mkTok sig name) (cs "NULL") (mkTok sig name) =
          cs "NULL" := replaceFirst_self _ _ (by simp [mkTok])
      rw [hrep, cleanParamOf_mkTok sig name hnm]
      show substLoop [] [] (cs "NULL") (setProp [] name JsValue.null) = _
      have hsp : setProp [] name JsValue.null = [(name, JsValue.null)] := by
        unfold setProp
        simp
      rw [hsp]
      rfl
    unfold formatMessage
    rw [if_neg hone, hsc, hsub]

/-- C7 witness: the placeholder named A bound to null renders the NULL
sentinel in the message and keeps a raw null properties entry. -/
theorem c7_witness :
    getParameterValue (cs "A") JsValue.null = cs "NULL" ∧
    formatMessage (cs "T") (cs "INFO") (mkTok false (cs "A")) [JsValue.null] [] =
      .ok ⟨cs "NULL", [(cs "A", JsValue.null)]⟩ :=
  ⟨c7_null_sentinel.1 (cs "A") JsValue.null (Or.inl rfl),
    c7_null_sentinel.2.2.2 false (cs "A") (cs "T") (cs "INFO") JsValue.null
      (by decide) (by decide) (Or.inl rfl)⟩

/-- C8: the concrete login scenario renders the at-sigiled compound
parameter as JSON text inside the message while the properties map keeps
the raw unserialized object, and in general an at-sigiled placeholder
bound to a compound value renders as JSON while a plain placeholder
bound to a compound value renders via default stringification. -/
theorem c8_compound_rendering :
    formatMessage (cs "2026-01-01T00:00:00.000Z") (cs "INFO")
        (cs "Login by \x7bUsername\x7d from \x7b@Meta\x7d")
        [.str (cs "john"), .objCons (cs "ip") (.str (cs "10.0.0.1")) .objNil] [] =
      .ok ⟨cs "Login by john from \x7b\"ip\":\"10.0.0.1\"\x7d",
        [(cs "Username", .str (cs "john")),
         (cs "Meta", .objCons (cs "ip") (.str (cs "10.0.0.1")) .objNil)]⟩ ∧
    (∀ (param : List Char) (v : JsValue), param.head? = some '@' →
      v.isCompound = true → getParameterValue param v = jsonStringify v) ∧
    (∀ (param : List Char) (v : JsValue), ¬(param.head? = some '@') →
      v.isCompound = true → getParameterValue param v = jsToString v) := by
  refine ⟨rfl, ?_, ?_⟩
  · intro param v hat hcomp
    cases v <;> simp [JsValue.isCompound] at hcomp <;>
      simp [getParameterValue, hat, JsValue.isCompound]
  · intro param v hat hcomp
    cases v <;> simp [JsValue.isCompound] at hcomp <;>
      simp [getParameterValue, hat, JsValue.isCompound]

/-- C8 witness: the at-sigiled Meta placeholder renders the concrete
object as JSON and the plain Meta placeholder renders it via default
stringification. -/
theorem c8_witness :
    ((cs "@Meta").head? = some '@') ∧
    (JsValue.objCons (cs "ip") (.str (cs "10.0.0.1")) .objNil).isCompound = true ∧
    getParameterValue (cs "@Meta")
        (.objCons (cs "ip") (.str (cs "10.0.0.1")) .objNil) =
      jsonStringify (.objCons (cs "ip") (.str (cs "10.0.0.1")) .objNil) ∧
    getParameterValue (cs "Meta")
        (.objCons (cs "ip") (.str (cs "10.0.0.1")) .objNil) =
      jsToString (.objCons (cs "ip") (.str (cs "10.0.0.1")) .objNil) :=
  ⟨by decide, by decide,
    c8_compound_rendering.2.1 (cs "@Meta") _ (by decide) (by decide),
    c8_compound_rendering.2.2 (cs "Meta") _ (by decide) (by decide)⟩

theorem find?_map_setProp {p : Props} {k K : List Char} {v : JsValue}
    (hne : k ≠ K) :
    (p.map (fun x => if x.1 = k then (k, v) else x)).find?
        (fun x => x.1 = K) = p.find? (fun x => x.1 = K) := by
  induction p with
  | nil => rfl
  | cons hd tl ih =>
    by_cases hk : hd.1 = k
    · simp only [List.map_cons, if_pos hk]
      have h1 : (decide ((k, v).1 = K)) = false := by simp [hne]
      have h2 : (decide (hd.1 = K)) = false := by simp [hk ▸ hne]
      rw [List.find?_cons, List.find?_cons, h1, h2]
      exact ih
    · simp only [List.map_cons, if_neg hk]
      rw [List.find?_cons, List.find?_cons]
      cases hK : decide (hd.1 = K) with
      | true => rfl
      | false => exact ih

theorem getProp_setProp_same (p : Props) (k : List Char) (v : JsValue) :
    getProp (setProp p k v) k = some v := by
  unfold setProp getProp
  by_cases ha : p.any (fun x => x.1 = k) = true
  · rw [if_pos ha]
    induction p with
    | nil => simp at ha
    | cons hd tl ih =>
      by_cases hk : hd.1 = k
      · simp only [List.map_cons, if_pos hk]
        rw [List.find?_cons]
        simp
      · simp only [List.map_cons, if_neg hk]
        rw [List.find?_cons]
        have hdk : (decide (hd.1 = k)) = false := by simp [hk]
        rw [hdk]
        have ha2 : tl.any (fun x => x.1 = k) = true := by
          rcases List.any_eq_true.mp ha with ⟨x, hx, hxk⟩
          cases hx with
          | head => exact absurd (of_decide_eq_true hxk) hk
          | tail _ hm => exact List.any_eq_true.mpr ⟨x, hm, hxk⟩
        exact ih ha2
  · rw [if_neg ha]
    have hnone : p.find? (fun x => x.1 = k) = none := by
      rw [List.find?_eq_none]
      intro x hx
      intro hxk
      exact ha (List.any_eq_true.mpr ⟨x, hx, hxk⟩)
    rw [List.find?_append, hnone]
    simp [List.find?_cons]

theorem getProp_setProp_ne (p : Props) {k K : List Char} (v : JsValue)
    (hne : k ≠ K) : getProp (setProp p k v) K = getProp p K := by
  unfold setProp getProp
  by_cases ha : p.any (fun x => x.1 = k) = true
  · rw [if_pos ha, find?_map_setProp hne]
  · rw [if_neg ha, List.find?_append]
    cases hf : p.find? (fun x => x.1 = K) with
    | some x => rfl
    | none =>
      simp only [Option.none_or]
      rw [List.find?_cons]
      have : (decide ((k, v).1 = K)) = false := by simp [hne]
      rw [this]
      rfl

theorem substLoop_getProp_skip :
    ∀ (toks : List (List Char)) (params : List JsValue) (msg : List Char)
      (props : Props) (K : List Char),
      (∀ t ∈ toks, cleanParamOf t ≠ K) →
      getProp (substLoop toks params msg props).2 K = getProp props K := by
  intro toks
  induction toks with
  | nil =>
    intro params msg props K _
    rfl
  | cons t ts ih =>
    intro params msg props K h
    rw [substLoop_cons]
    rw [ih params.tail _ _ K (fun x hx => h x (List.mem_cons_of_mem _ hx))]
    exact getProp_setProp_ne props _ (h t (List.mem_cons_self _ _))

theorem substLoop_getProp_last :
    ∀ (pre : List (List Char)) (vpre : List JsValue) (post : List (List Char))
      (vpost : List JsValue) (t K : List Char) (v : JsValue) (msg : List Char)
      (props : Props),
      vpre.length = pre.length → cleanParamOf t = K →
      (∀ t2 ∈ post, cleanParamOf t2 ≠ K) →
      getProp (substLoop (pre ++ t :: post) (vpre ++ v :: vpost) msg props).2 K =
        some (nullCoerce (some v)) := by
  intro pre
  induction pre with
  | nil =>
    intro vpre post vpost t K v msg props hlen ht hpost
    cases vpre with
    | cons a b => simp at hlen
    | nil =>
      rw [List.nil_append, List.nil_append, substLoop_cons]
      simp only [List.head?_cons, List.tail_cons]
      rw [substLoop_getProp_skip post vpost _ _ K hpost, ht]
      exact getProp_setProp_same props K (nullCoerce (some v))
  | cons t0 pre' ih =>
    intro vpre post vpost t K v msg props hlen ht hpost
    cases vpre with
    | nil => simp at hlen
    | cons v0 vpre' =>
      simp only [List.length_cons] at hlen
      rw [List.cons_append, List.cons_append, substLoop_cons]
      simp only [List.head?_cons, List.tail_cons]
      exact ih vpre' post vpost t K v _ _ (by omega) ht hpost

/-- C10: whenever the template's token list contains a placeholder whose
cleaned name equals an enrichment key and no later token shares that
name, the dispatched record's properties map holds the placeholder's raw
parameter value under that key, overwriting whatever
`createPropertiesObject` wrote there, because enrichment runs before the
substitution loop and the loop writes every cleaned name
unconditionally. -/
theorem c10_placeholder_overwrites_enrichment :
    ∀ (ri : RuntimeInfo) (ci : Option CallingInfo) (lc : LogConfig)
      (dests : List Destination) (queue : List TrackedPromise)
      (now template level : List Char) (exc : Option (Option (List Char)))
      (pre post : List (List Char)) (vpre vpost : List JsValue)
      (t K : List Char) (v : JsValue),
      scanTokens template = pre ++ t :: post →
      vpre.length = pre.length → vpost.length = post.length →
      cleanParamOf t = K →
      (∀ t2 ∈ post, cleanParamOf t2 ≠ K) →
      ∃ (q2 : List TrackedPromise) (mo : MessageObject),
        loggerLog ri ci lc dests queue now template level exc
          (vpre ++ v :: vpost) = .ok (q2, mo) ∧
        getProp mo.properties K = some (nullCoerce (some v)) := by
  intro ri ci lc dests queue now template level exc pre post vpre vpost t K v
    htoks hlpre hlpost ht hpost
  have harity : ¬((vpre ++ v :: vpost).length ≠ (scanTokens template).length) := by
    rw [htoks]
    simp only [List.length_append, List.length_cons]
    omega
  unfold loggerLog
  rw [if_neg harity]
  refine ⟨_, _, rfl, ?_⟩
  show getProp (substLoop (scanTokens template) (vpre ++ v :: vpost) template
    (createPropertiesObject ri lc ci)).2 K = some (nullCoerce (some v))
  rw [htoks]
  exact substLoop_getProp_last pre vpre post vpost t K v template
    (createPropertiesObject ri lc ci) hlpre ht hpost

/-- C10 witness: a logging call whose template is the single AppName
placeholder, issued while the runtime info carries an application name,
ends with the parameter value, not the enrichment value, stored under
AppName. -/
theorem c10_witness :
    ∃ (q2 : List TrackedPromise) (mo : MessageObject),
      loggerLog ⟨some (cs "pkg"), none, none⟩ none ⟨none, none, none⟩ [] []
        (cs "T") (cs "\x7bAppName\x7d") (cs "INFO") none
        ([] ++ JsValue.str (cs "custom") :: []) = .ok (q2, mo) ∧
      getProp mo.properties (cs "AppName") =
        some (nullCoerce (some (JsValue.str (cs "custom")))) :=
  c10_placeholder_overwrites_enrichment ⟨some (cs "pkg"), none, none⟩ none
    ⟨none, none, none⟩ [] [] (cs "T") (cs "\x7bAppName\x7d") (cs "INFO") none
    [] [] [] [] (cs "\x7bAppName\x7d") (cs "AppName") (JsValue.str (cs "custom"))
    (by decide) (by decide) (by decide) (by decide) (by decide)
